import Mathlib

/-!
Verification of the nearest-facility assignment and spatial aggregation
pipeline of the Bangkok hospital mapping scripts
(BKK_Hospital_Default.py, BKK_Hospital_Distance_CSMBS.py,
BKK_Hospital_Congestion_ByDistrict.py and their near-duplicates).

Coordinates and distances are embedded as exact rationals; the geodesic
distance function (geopy geodesic) is an abstract parameter of every
definition, since none of the verified properties depend on the metric
itself, only on how the scripts use it.
-/

namespace BKK

/-- A planar point: a pair of rationals.  Used both as (lat, lon) for the
distance scan and as (x, y) = (lon, lat) for shapely containment tests. -/
abbrev Point := ℚ × ℚ

/-- The type of the geodesic distance function `geodesic(a, b).meters`. -/
abbrev Dist := Point → Point → ℚ

/-! ## Nearest-facility linear scan

`BKK_Hospital_Default.py` lines 118-133 (identically
`BKK_Hospital_Distance_CSMBS.py` lines 188-203 over the eligible subset):

    min_dist = float('inf'); nearest_idx = None
    for h_idx, hosp in hospitals.iterrows():
        try:
            h_lat = float(hosp[LAT_COL]); h_lon = float(hosp[LON_COL])
        except Exception:
            continue
        d = geodesic((comm_lat, comm_lon), (h_lat, h_lon)).meters
        if d < min_dist:
            min_dist = d; nearest_idx = h_idx

A facility row is embedded as its pandas index label together with the
result of parsing its coordinate cells (`none` when `float()` raises). -/

/-- One iteration of the scan body.  The accumulator is
`(min_dist, nearest_idx)`, with `none` standing for `float('inf')` / `None`.
The running minimum is replaced only on strict decrease, so the
first-encountered minimum is kept. -/
def scanStep (dist : Dist) (c : Point)
    (acc : Option ℚ × Option Nat) (f : Nat × Option Point) :
    Option ℚ × Option Nat :=
  match f.2 with
  | none => acc
  | some p =>
    let d := dist c p
    match acc.1 with
    | none => (some d, some f.1)
    | some m => if d < m then (some d, some f.1) else acc

/-- The whole scan over the facility table. -/
def nearestScan (dist : Dist) (c : Point)
    (facs : List (Nat × Option Point)) : Option ℚ × Option Nat :=
  facs.foldl (scanStep dist c) (none, none)

/-- The body of the community loop: a community whose coordinates fail to
parse gets the entry `(c_idx, None, None)`; otherwise the scan result is
appended as `(c_idx, nearest_idx, min_dist if min_dist != inf else None)`. -/
def assignEntry (dist : Dist) (facs : List (Nat × Option Point))
    (k : Nat) (c : Option Point) : Nat × Option Nat × Option ℚ :=
  match c with
  | none => (k, none, none)
  | some c =>
    let r := nearestScan dist c facs
    (k, r.2, r.1)

/-- `comm_assigned`: one append per community row, in row order.  Communities
are identified by their pandas index label, which for a freshly read CSV is
the row position. -/
def comm_assigned (dist : Dist) (facs : List (Nat × Option Point))
    (comms : List (Option Point)) : List (Nat × Option Nat × Option ℚ) :=
  comms.enum.foldl (fun acc ce => acc ++ [assignEntry dist facs ce.1 ce.2]) []

/-! ## The truthy eligibility parser -/

/-- The numeric value of a list of decimal digit characters. -/
def natOfDigits (cs : List Char) : Nat :=
  cs.foldl (fun a c => 10 * a + (c.toNat - 48)) 0

/-- Models Python `float()` on plain decimal literals: an optional sign, then
digits with an optional fractional part (at least one digit overall).
Exponent forms, `inf`/`nan` and digit underscores are accepted by `float()`
but are exercised by no claim; on every input appearing in the spec this
agrees with `float()`.  `none` models `float()` raising `ValueError`. -/
def ratOfString (s : String) : Option ℚ :=
  let cs := s.toList
  let body : ℚ × List Char :=
    match cs with
    | '-' :: r => (-1, r)
    | '+' :: r => (1, r)
    | r => (1, r)
  let ip := body.2.takeWhile Char.isDigit
  let rest := body.2.dropWhile Char.isDigit
  match rest with
  | [] => if ip.isEmpty then none else some (body.1 * natOfDigits ip)
  | '.' :: fr =>
    if fr.all Char.isDigit && !(ip.isEmpty && fr.isEmpty) then
      some (body.1 * ((natOfDigits ip : ℚ) + (natOfDigits fr : ℚ) / (10 ^ fr.length : ℚ)))
    else none
  | _ => none

/-- `truthy`, lines 86-97 of `BKK_Hospital_Distance_CSMBS.py` (identical in
`Ratchathewi_Hospital_Rights_CSMBS.py` lines 83-92).  The argument is the raw
cell value: `none` models a value for which `pd.isna` is true (missing/NaN),
`some s` models any other value via its string form `str(val)`.
`String.toLower` lowercases ASCII letters only, exactly like `str.lower`
restricted to the alphabets that occur here (Thai letters have no case). -/
def truthy (val : Option String) : Bool :=
  match val with
  | none => false
  | some v =>
    let s := v.trim.toLower
    if s = "1" || s = "y" || s = "yes" || s = "true" ||
       s = "รับ" || s = "ใช่" || s = "t" || s = "on" then
      true
    else
      match ratOfString s with
      | some x => decide (0 < x)
      | none => false

/-! ## Table rows -/

/-- A hospital CSV row as the scripts consume it: the coordinate cells as
their `float()`-parse result (`none` when `float()` raises), the raw
scheme-eligibility cell, the raw numeric cells, and the value of the
`'weight'` column when that column exists on the table (`none` when the
column is absent, as it is on a freshly loaded table). -/
structure HospRow where
  lat : Option ℚ
  lon : Option ℚ
  csmbs : Option String
  wcol : Option Nat
  nearPop : Option ℚ
  beds : Option ℚ
deriving Repr, DecidableEq

/-- A community CSV row: coordinate cells as their parse result and the raw
population cell. -/
structure CommRow where
  lat : Option ℚ
  lon : Option ℚ
  pop : Option ℚ
deriving Repr, DecidableEq

/-- A table is its rows tagged with their pandas index labels; a freshly read
CSV has the default RangeIndex, i.e. the row positions. -/
def mkTable (rows : List HospRow) : List (Nat × HospRow) := rows.enum

/-- `float(row[LAT_COL]); float(row[LON_COL])` under one try: both must
parse.  The pair is (lat, lon), the argument order of `geodesic`. -/
def hospLL (h : HospRow) : Option Point :=
  match h.lat, h.lon with
  | some a, some b => some (a, b)
  | _, _ => none

/-- `ShapelyPoint(float(row[LON_COL]), float(row[LAT_COL]))`: the
containment point is (x, y) = (lon, lat). -/
def hospXY (h : HospRow) : Option Point :=
  match h.lat, h.lon with
  | some a, some b => some (b, a)
  | _, _ => none

def commLL (c : CommRow) : Option Point :=
  match c.lat, c.lon with
  | some a, some b => some (a, b)
  | _, _ => none

def commXY (c : CommRow) : Option Point :=
  match c.lat, c.lon with
  | some a, some b => some (b, a)
  | _, _ => none

/-- The facility list as the scan consumes it. -/
def scanList (tbl : List (Nat × HospRow)) : List (Nat × Option Point) :=
  tbl.map (fun h => (h.1, hospLL h.2))

/-- `csmbs_hospitals = hospitals[hospitals['csmbs_accept'] == True]`
(line 156 of `BKK_Hospital_Distance_CSMBS.py`): the row subset whose
eligibility cell is truthy; pandas keeps the original index labels. -/
def csmbsTable (tbl : List (Nat × HospRow)) : List (Nat × HospRow) :=
  tbl.filter (fun h => truthy h.2.csmbs)

/-! ## Facility weights

`BKK_Hospital_Default.py` lines 136-143 (CSMBS variant lines 206-212):

    hospitals['weight'] = 0
    for c_idx, h_idx, d in comm_assigned:
        if h_idx is not None and pd.notnull(h_idx):
            try:
                hospitals.at[h_idx, 'weight'] += 1
            except Exception:
                pass
-/

/-- `hospitals['weight'] = 0`: every row gets the weight column, zeroed. -/
def zeroWeights (tbl : List (Nat × HospRow)) : List (Nat × HospRow) :=
  tbl.map (fun h => (h.1, { h.2 with wcol := some 0 }))

/-- `.at[i, 'weight'] += 1`: label-based single-cell update; when the label
is absent the code's except-pass leaves the table unchanged. -/
def bumpWeight (tbl : List (Nat × HospRow)) (i : Nat) : List (Nat × HospRow) :=
  tbl.map (fun h =>
    if h.1 = i then (h.1, { h.2 with wcol := some (h.2.wcol.getD 0 + 1) }) else h)

/-- One iteration of the weight pass: entries with `h_idx` None are skipped,
the rest bump their facility's weight cell. -/
def wstep (t : List (Nat × HospRow)) (e : Nat × Option Nat × Option ℚ) :
    List (Nat × HospRow) :=
  match e.2.1 with
  | none => t
  | some i => bumpWeight t i

/-- The whole weight pass over the assignment list. -/
def set_weights (tbl : List (Nat × HospRow))
    (asg : List (Nat × Option Nat × Option ℚ)) : List (Nat × HospRow) :=
  asg.foldl wstep (zeroWeights tbl)

/-- The total of the weight column (`row.get('weight', 0)` per row). -/
def sum_weights (tbl : List (Nat × HospRow)) : Nat :=
  (tbl.map (fun h => h.2.wcol.getD 0)).sum

/-! ## Polygons and containment

Region geometry comes from `districts.geojson` via `shapely.geometry.shape`;
membership is tested with `poly.contains(pt)`.  Shapely's `contains` for a
point means the point lies in the **interior** of the polygon: a point on
the boundary is not contained.  A polygon is embedded as its vertex ring and
interior membership as the standard exact even-odd ray test restricted to
non-boundary points. -/

abbrev Polygon := List Point

/-- The ring's edges: consecutive vertex pairs, wrapping around. -/
def ringEdges (poly : Polygon) : List (Point × Point) :=
  poly.zip (poly.drop 1 ++ poly.take 1)

/-- Whether the horizontal ray from `p` rightwards crosses the edge (a, b). -/
def edgeCross (p a b : Point) : Bool :=
  (decide (p.2 < a.2) != decide (p.2 < b.2)) &&
    decide (p.1 < a.1 + (b.1 - a.1) * (p.2 - a.2) / (b.2 - a.2))

/-- Even-odd ray-casting membership (boundary points unspecified). -/
def evenOddInside (poly : Polygon) (p : Point) : Bool :=
  (ringEdges poly).foldl (fun acc e => if edgeCross p e.1 e.2 then !acc else acc) false

/-- `p` lies on the closed segment from `a` to `b`. -/
def onSegment (p a b : Point) : Bool :=
  decide ((b.1 - a.1) * (p.2 - a.2) = (b.2 - a.2) * (p.1 - a.1)) &&
  decide (min a.1 b.1 ≤ p.1) && decide (p.1 ≤ max a.1 b.1) &&
  decide (min a.2 b.2 ≤ p.2) && decide (p.2 ≤ max a.2 b.2)

/-- `p` lies on the polygon's boundary. -/
def onBoundary (poly : Polygon) (p : Point) : Bool :=
  (ringEdges poly).any (fun e => onSegment p e.1 e.2)

/-- Models shapely `poly.contains(pt)` for a point: interior membership;
false for every boundary point. -/
def polyContains (poly : Polygon) (p : Point) : Bool :=
  evenOddInside poly p && !onBoundary poly p

/-- A district feature: its resolved name (`props.get(name_field)`, which may
be missing) and its shapely geometry (`none` when the geometry is missing or
`shape()` raised). -/
abbrev Region := Option String × Option Polygon

/-- The membership loops (`BKK_Hospital_Default.py` lines 151-183): iterate
the regions in input order, skip unusable geometry, stop at the first polygon
containing the point, and return that region's name. -/
def firstContainingName : List Region → Point → Option (Option String)
  | [], _ => none
  | r :: rest, p =>
    match r.2 with
    | none => firstContainingName rest p
    | some poly =>
      if polyContains poly p then some r.1 else firstContainingName rest p

/-! ## District metrics -/

/-- One district's aggregate counters. -/
structure Metrics where
  numHospitals : Nat
  numCommunities : Nat
  sumWeights : Nat
deriving Repr, DecidableEq

def Metrics.zero : Metrics := ⟨0, 0, 0⟩

/-- A Python dict with `Option String` keys: the insertion-ordered key list
plus the value map (read only at present keys). -/
structure DMap where
  keys : List (Option String)
  val : Option String → Metrics

/-- `dict[k] = v` (also the effect of `setdefault` followed by mutation):
overwrite the value, appending the key when new. -/
def DMap.set (d : DMap) (k : Option String) (v : Metrics) : DMap :=
  ⟨if k ∈ d.keys then d.keys else d.keys ++ [k],
   fun x => if x = k then v else d.val x⟩

/-- `dict.get(k, zeros)` / `setdefault(k, zeros)` read. -/
def DMap.getD (d : DMap) (k : Option String) : Metrics :=
  if k ∈ d.keys then d.val k else Metrics.zero

/-- `district_metrics = {name: zeros for name in district_names}`. -/
def initMetrics (regions : List Region) : DMap :=
  regions.foldl (fun d r => d.set r.1 Metrics.zero) ⟨[], fun _ => Metrics.zero⟩

/-- The hospital membership loop body (`BKK_Hospital_Default.py` lines
151-166): rows with unparseable coordinates are skipped; the first containing
region's bucket gets `num_hospitals += 1` and
`sum_hospital_weights += int(hosp.get('weight', 0) or 0)`, where
`Series.get` yields the default 0 when the table has no weight column. -/
def addHospital (regions : List Region) (d : DMap) (h : Nat × HospRow) : DMap :=
  match hospXY h.2 with
  | none => d
  | some p =>
    match firstContainingName regions p with
    | none => d
    | some name =>
      let m := d.getD name
      d.set name
        { m with
          numHospitals := m.numHospitals + 1
          sumWeights := m.sumWeights + h.2.wcol.getD 0 }

/-- The community membership loop body (lines 169-183). -/
def addCommunity (regions : List Region) (d : DMap) (c : CommRow) : DMap :=
  match commXY c with
  | none => d
  | some p =>
    match firstContainingName regions p with
    | none => d
    | some name =>
      let m := d.getD name
      d.set name { m with numCommunities := m.numCommunities + 1 }

/-- `district_metrics` after initialization and both membership loops. -/
def district_metrics (regions : List Region) (hosps : List (Nat × HospRow))
    (comms : List CommRow) : DMap :=
  (comms.foldl (addCommunity regions)
    (hosps.foldl (addHospital regions) (initMetrics regions)))

/-- `max((v['sum_hospital_weights'] for v in district_metrics.values()),
default=1)`: the default 1 applies only to an empty dict. -/
def max_sum_weights (d : DMap) : Nat :=
  match d.keys with
  | [] => 1
  | _ => (d.keys.map (fun k => (d.val k).sumWeights)).foldl max 0

/-- `choropleth_norm`: `s / max` when the max is positive, else `0.0`
(`BKK_Hospital_Congestion_ByDistrict.py` line 186,
`BKK_Hospital_Default.py` line 230). -/
def choropleth_norm (s mx : Nat) : ℚ :=
  if 0 < mx then (s : ℚ) / (mx : ℚ) else 0

/-- The properties written back into one output feature. -/
structure OutProps where
  name : Option String
  metrics : Metrics
  norm : ℚ
deriving DecidableEq

/-- The write-back loop (`BKK_Hospital_Congestion_ByDistrict.py` lines
179-186): each feature reads the bucket stored under its resolved name,
defaulting to zeroed metrics, and receives the normalized score. -/
def out_features (d : DMap) (mx : Nat) (regions : List Region) : List OutProps :=
  regions.map (fun r =>
    let m := d.getD r.1
    ⟨r.1, m, choropleth_norm m.sumWeights mx⟩)

/-! ## Whole-script runs -/

/-- The artifacts of one default-variant run (`BKK_Hospital_Default.py`,
`BKK_Hospital_Congestion_ByDistrict.py`): the assignment list, the weighted
hospital table, the metrics dict and the output features. -/
structure DefaultRun where
  asg : List (Nat × Option Nat × Option ℚ)
  hospW : List (Nat × HospRow)
  dmap : DMap
  out : List OutProps

def runDefault (dist : Dist) (regions : List Region) (hospRows : List HospRow)
    (commRows : List CommRow) : DefaultRun :=
  let tbl := mkTable hospRows
  let asg := comm_assigned dist (scanList tbl) (commRows.map commLL)
  let w := set_weights tbl asg
  let d := district_metrics regions w commRows
  ⟨asg, w, d, out_features d (max_sum_weights d) regions⟩

/-- The artifacts of one CSMBS-variant run. -/
structure CSMBSRun where
  asg : List (Nat × Option Nat × Option ℚ)
  eligW : List (Nat × HospRow)
  dmap : DMap
  out : List OutProps

/-- `BKK_Hospital_Distance_CSMBS.py` lines 146-266: the scan runs over the
eligible copy `csmbs_hospitals`, which also receives the `'weight'` column;
the district loop, however, iterates the full `hospitals` table, whose rows
never acquire that column, so its weight reads all default to 0. -/
def runCSMBS (dist : Dist) (regions : List Region) (hospRows : List HospRow)
    (commRows : List CommRow) : CSMBSRun :=
  let tbl := mkTable hospRows
  let elig := csmbsTable tbl
  let asg := comm_assigned dist (scanList elig) (commRows.map commLL)
  let w := set_weights elig asg
  let d := district_metrics regions tbl commRows
  ⟨asg, w, d, out_features d (max_sum_weights d) regions⟩

/-! ## Load-time coercion -/

/-- Truncation toward zero: `astype(int)` on a float value. -/
def ratTrunc (q : ℚ) : Int :=
  if 0 ≤ q then Int.floor q else Int.ceil q

/-- `pd.to_numeric(col, errors='coerce').fillna(0).astype(int)`: a missing or
non-numeric cell becomes 0; a numeric cell is truncated to an integer with
its sign kept. -/
def coerceIntD (v : Option ℚ) : Int :=
  match v with
  | none => 0
  | some q => ratTrunc q

/-- The community load stage, `BKK_Hospital_Default.py` lines 59-82: pandas
`read_csv` keeps every row (no row is dropped for unparseable coordinates;
those cells are only parsed later, per use, under try/except); the optional
population column is coerced.  Each loaded record is the row paired with its
coerced population. -/
def load_communities (rows : List CommRow) : List (CommRow × Int) :=
  rows.map (fun r => (r, coerceIntD r.pop))

/-- The hospital load stage, lines 59-61 and 85-88: every row kept, the two
numeric popup columns coerced. -/
def load_hospitals (rows : List HospRow) : List (HospRow × Int × Int) :=
  rows.map (fun r => (r, coerceIntD r.nearPop, coerceIntD r.beds))

/-! ## Concrete data for witnesses and counterexamples -/

/-- A concrete stand-in for the geodesic metric in closed evaluations:
the squared Euclidean distance on the (lat, lon) plane.  (Every theorem
about the scan is proved for an arbitrary distance function.) -/
def demoDist : Dist := fun p q => (p.1 - q.1) ^ 2 + (p.2 - q.2) ^ 2

/-- The unit square with corners (0,0) and (1,1). -/
def sqA : Polygon := [(0, 0), (1, 0), (1, 1), (0, 1)]

/-- The unit square with corners (1,0) and (2,1): shares the edge x = 1
with `sqA`. -/
def sqB : Polygon := [(1, 0), (2, 0), (2, 1), (1, 1)]

/-- The square with corners (-1,-1) and (1,1). -/
def sqC : Polygon := [(-1, -1), (1, -1), (1, 1), (-1, 1)]

/-- Two adjacent regions sharing the boundary x = 1. -/
def demoRegionsAB : List Region := [(some "A", some sqA), (some "B", some sqB)]

/-- A point exactly on the shared boundary of `sqA` and `sqB`. -/
def demoPt : Point := (1, 1 / 2)

/-- One region around the origin. -/
def demoRegionsC : List Region := [(some "C", some sqC)]

/-- A CSMBS-accepting hospital at the origin, inside `sqC`; the table it is
loaded into has no weight column. -/
def demoHosp : HospRow :=
  { lat := some 0, lon := some 0, csmbs := some "yes", wcol := none,
    nearPop := some 0, beds := some 0 }

/-- A hospital whose eligibility cell is falsy. -/
def demoHospNo : HospRow :=
  { lat := some 0, lon := some 0, csmbs := some "no", wcol := none,
    nearPop := some 0, beds := some 0 }

/-- A community near the origin, inside `sqC`. -/
def demoComm : CommRow := { lat := some 0, lon := some (1 / 4), pop := some 10 }

/-- A community row whose coordinate cells fail to parse. -/
def demoCommBad : CommRow := { lat := none, lon := none, pop := some 5 }

/-- A small scan list: facility 0 at the origin, facility 1 with unparseable
coordinates, facility 2 away from the origin. -/
def demoFacs : List (Nat × Option Point) :=
  [(0, some (0, 0)), (1, none), (2, some (3, 3))]


/-! # Theorems -/

/-- Characterization of the scan's accumulator-passing recursion: from a
running minimum `m` held by facility `ti`, the result either keeps the
accumulator (no later facility strictly beats `m`) or is the first facility
of the remaining list to reach the final minimum, which strictly beats `m`. -/
theorem nearestScan_acc (dist : Dist) (c : Point) :
    ∀ (l : List (Nat × Option Point)) (m : ℚ) (ti : Nat) (d : ℚ) (t : Nat),
      l.foldl (scanStep dist c) (some m, some ti) = (some d, some t) →
      (d = m ∧ t = ti ∧ ∀ j tj q, l.get? j = some (tj, some q) → m ≤ dist c q)
      ∨ (∃ pos p, l.get? pos = some (t, some p) ∧ dist c p = d ∧ d < m ∧
          (∀ j tj q, l.get? j = some (tj, some q) → d ≤ dist c q) ∧
          (∀ j tj q, j < pos → l.get? j = some (tj, some q) → d < dist c q)) := by
  intro l
  induction l with
  | nil =>
    intro m ti d t h
    simp only [List.foldl_nil, Prod.mk.injEq, Option.some.injEq] at h
    exact Or.inl ⟨h.1.symm, h.2.symm, by intro j tj q hj; simp at hj⟩
  | cons x xs ih =>
    intro m ti d t h
    obtain ⟨tx, cx⟩ := x
    rw [List.foldl_cons] at h
    cases cx with
    | none =>
      have h' : xs.foldl (scanStep dist c) (some m, some ti) = (some d, some t) := h
      rcases ih m ti d t h' with ⟨hd, ht, hb⟩ | ⟨pos, p, hget, hdist, hlt, hub, hfirst⟩
      · refine Or.inl ⟨hd, ht, ?_⟩
        intro j tj q hj
        cases j with
        | zero => simp at hj
        | succ j => exact hb j tj q hj
      · refine Or.inr ⟨pos + 1, p, by simpa using hget, hdist, hlt, ?_, ?_⟩
        · intro j tj q hj
          cases j with
          | zero => simp at hj
          | succ j => exact hub j tj q hj
        · intro j tj q hjpos hj
          cases j with
          | zero => simp at hj
          | succ j => exact hfirst j tj q (Nat.lt_of_succ_lt_succ hjpos) hj
    | some p =>
      by_cases hcmp : dist c p < m
      · have h' : xs.foldl (scanStep dist c) (some (dist c p), some tx) = (some d, some t) := by
          simpa [scanStep, hcmp] using h
        rcases ih (dist c p) tx d t h' with ⟨hd, ht, hb⟩ | ⟨pos, p', hget, hdist, hlt, hub, hfirst⟩
        · refine Or.inr ⟨0, p, by simp [ht], hd.symm, hd ▸ hcmp, ?_, ?_⟩
          · intro j tj q hj
            cases j with
            | zero =>
              simp only [List.get?_cons_zero, Option.some.injEq, Prod.mk.injEq] at hj
              rcases hj with ⟨rfl, hq⟩
              obtain rfl : p = q := hq
              exact le_of_eq hd
            | succ j => exact hd ▸ hb j tj q hj
          · intro j tj q hjpos hj
            exact absurd hjpos (Nat.not_lt_zero j)
        · refine Or.inr ⟨pos + 1, p', by simpa using hget, hdist, lt_trans hlt hcmp, ?_, ?_⟩
          · intro j tj q hj
            cases j with
            | zero =>
              simp only [List.get?_cons_zero, Option.some.injEq, Prod.mk.injEq] at hj
              rcases hj with ⟨rfl, hq⟩
              obtain rfl : p = q := hq
              exact le_of_lt hlt
            | succ j => exact hub j tj q hj
          · intro j tj q hjpos hj
            cases j with
            | zero =>
              simp only [List.get?_cons_zero, Option.some.injEq, Prod.mk.injEq] at hj
              rcases hj with ⟨rfl, hq⟩
              obtain rfl : p = q := hq
              exact hlt
            | succ j => exact hfirst j tj q (Nat.lt_of_succ_lt_succ hjpos) hj
      · have h' : xs.foldl (scanStep dist c) (some m, some ti) = (some d, some t) := by
          simpa [scanStep, hcmp] using h
        rcases ih m ti d t h' with ⟨hd, ht, hb⟩ | ⟨pos, p', hget, hdist, hlt, hub, hfirst⟩
        · refine Or.inl ⟨hd, ht, ?_⟩
          intro j tj q hj
          cases j with
          | zero =>
            simp only [List.get?_cons_zero, Option.some.injEq, Prod.mk.injEq] at hj
            rcases hj with ⟨rfl, hq⟩
            obtain rfl : p = q := hq
            exact le_of_not_lt hcmp
          | succ j => exact hb j tj q hj
        · refine Or.inr ⟨pos + 1, p', by simpa using hget, hdist, hlt, ?_, ?_⟩
          · intro j tj q hj
            cases j with
            | zero =>
              simp only [List.get?_cons_zero, Option.some.injEq, Prod.mk.injEq] at hj
              rcases hj with ⟨rfl, hq⟩
              obtain rfl : p = q := hq
              exact le_of_lt (lt_of_lt_of_le hlt (le_of_not_lt hcmp))
            | succ j => exact hub j tj q hj
          · intro j tj q hjpos hj
            cases j with
            | zero =>
              simp only [List.get?_cons_zero, Option.some.injEq, Prod.mk.injEq] at hj
              rcases hj with ⟨rfl, hq⟩
              obtain rfl : p = q := hq
              exact lt_of_lt_of_le hlt (le_of_not_lt hcmp)
            | succ j => exact hfirst j tj q (Nat.lt_of_succ_lt_succ hjpos) hj

/-- Characterization of the full scan from the initial `(inf, None)`
accumulator: a returned `(some d, some t)` names a facility occurring in the
list with parseable coordinates at distance `d`, no parseable facility is
strictly closer, and every parseable facility earlier in iteration order is
strictly farther (first-encountered minimum). -/
theorem nearestScan_char (dist : Dist) (c : Point) :
    ∀ (l : List (Nat × Option Point)) (d : ℚ) (t : Nat),
      nearestScan dist c l = (some d, some t) →
      ∃ pos p, l.get? pos = some (t, some p) ∧ dist c p = d ∧
        (∀ j tj q, l.get? j = some (tj, some q) → d ≤ dist c q) ∧
        (∀ j tj q, j < pos → l.get? j = some (tj, some q) → d < dist c q) := by
  intro l
  induction l with
  | nil => intro d t h; simp [nearestScan] at h
  | cons x xs ih =>
    intro d t h
    obtain ⟨tx, cx⟩ := x
    rw [nearestScan, List.foldl_cons] at h
    cases cx with
    | none =>
      have h' : nearestScan dist c xs = (some d, some t) := h
      obtain ⟨pos, p, hget, hdist, hub, hfirst⟩ := ih d t h'
      refine ⟨pos + 1, p, by simpa using hget, hdist, ?_, ?_⟩
      · intro j tj q hj
        cases j with
        | zero => simp at hj
        | succ j => exact hub j tj q hj
      · intro j tj q hjpos hj
        cases j with
        | zero => simp at hj
        | succ j => exact hfirst j tj q (Nat.lt_of_succ_lt_succ hjpos) hj
    | some p =>
      have h' : xs.foldl (scanStep dist c) (some (dist c p), some tx) = (some d, some t) := by
        simpa [scanStep] using h
      rcases nearestScan_acc dist c xs (dist c p) tx d t h' with
        ⟨hd, ht, hb⟩ | ⟨pos, p', hget, hdist, hlt, hub, hfirst⟩
      · refine ⟨0, p, by simp [ht], hd.symm, ?_, ?_⟩
        · intro j tj q hj
          cases j with
          | zero =>
            simp only [List.get?_cons_zero, Option.some.injEq, Prod.mk.injEq] at hj
            rcases hj with ⟨rfl, hq⟩
            obtain rfl : p = q := hq
            exact le_of_eq hd
          | succ j => exact hd ▸ hb j tj q hj
        · intro j tj q hjpos hj
          exact absurd hjpos (Nat.not_lt_zero j)
      · refine ⟨pos + 1, p', by simpa using hget, hdist, ?_, ?_⟩
        · intro j tj q hj
          cases j with
          | zero =>
            simp only [List.get?_cons_zero, Option.some.injEq, Prod.mk.injEq] at hj
            rcases hj with ⟨rfl, hq⟩
            obtain rfl : p = q := hq
            exact le_of_lt hlt
          | succ j => exact hub j tj q hj
        · intro j tj q hjpos hj
          cases j with
          | zero =>
            simp only [List.get?_cons_zero, Option.some.injEq, Prod.mk.injEq] at hj
            rcases hj with ⟨rfl, hq⟩
            obtain rfl : p = q := hq
            exact hlt
          | succ j => exact hfirst j tj q (Nat.lt_of_succ_lt_succ hjpos) hj

theorem scan_fold_all_none (dist : Dist) (c : Point) :
    ∀ (l : List (Nat × Option Point)), (∀ f ∈ l, f.2 = none) →
      ∀ acc, l.foldl (scanStep dist c) acc = acc := by
  intro l
  induction l with
  | nil => intro _ acc; rfl
  | cons x xs ih =>
    intro h acc
    rw [List.foldl_cons]
    have hx : x.2 = none := h x (List.mem_cons_self x xs)
    obtain ⟨tx, cx⟩ := x
    cases cx with
    | none => exact ih (fun f hf => h f (List.mem_cons_of_mem _ hf)) acc
    | some p => simp at hx

theorem scan_fold_none_iff (dist : Dist) (c : Point) :
    ∀ (l : List (Nat × Option Point)) (acc : Option ℚ × Option Nat),
      (acc.1 = none ↔ acc.2 = none) →
      ((l.foldl (scanStep dist c) acc).1 = none ↔
        (l.foldl (scanStep dist c) acc).2 = none) := by
  intro l
  induction l with
  | nil => intro acc h; exact h
  | cons x xs ih =>
    intro acc h
    rw [List.foldl_cons]
    apply ih
    obtain ⟨tx, cx⟩ := x
    cases cx with
    | none => exact h
    | some p =>
      obtain ⟨mo, io⟩ := acc
      cases mo with
      | none => simp [scanStep]
      | some m =>
        by_cases hc : dist c p < m
        · simp [scanStep, hc]
        · simpa [scanStep, hc] using h

theorem nearestScan_snd_some (dist : Dist) (c : Point)
    (l : List (Nat × Option Point)) (t : Nat)
    (h : (nearestScan dist c l).2 = some t) :
    ∃ d, nearestScan dist c l = (some d, some t) := by
  have hiff := scan_fold_none_iff dist c l (none, none) (by simp)
  rcases hE : nearestScan dist c l with ⟨mo, io⟩
  rw [hE] at h
  rw [show l.foldl (scanStep dist c) (none, none) = nearestScan dist c l from rfl, hE] at hiff
  cases mo with
  | none =>
    have : io = none := hiff.mp rfl
    simp [this] at h
  | some d =>
    cases h
    exact ⟨d, rfl⟩

theorem foldl_append_map {α β : Type} (f : α → β) :
    ∀ (l : List α) (acc : List β),
      l.foldl (fun a x => a ++ [f x]) acc = acc ++ l.map f := by
  intro l
  induction l with
  | nil => intro acc; simp
  | cons x xs ih => intro acc; simp [ih]

theorem comm_assigned_eq_map (dist : Dist) (facs : List (Nat × Option Point))
    (comms : List (Option Point)) :
    comm_assigned dist facs comms
      = comms.enum.map (fun ce => assignEntry dist facs ce.1 ce.2) := by
  unfold comm_assigned
  rw [foldl_append_map]
  simp

theorem assignEntry_fst (dist : Dist) (facs : List (Nat × Option Point))
    (k : Nat) (c : Option Point) : (assignEntry dist facs k c).1 = k := by
  cases c <;> rfl

/-- C1: for every community with parseable coordinates, the assignment
operation returns an eligible facility with parseable coordinates whose
distance to the community is smallest, together with that minimal distance,
and when several eligible facilities attain the minimum the one earliest in
facility iteration order is chosen (first-encountered minimum of a single
linear scan with strict less-than comparison).  `facs` is the scanned
facility list — in the eligibility-filtered variants, the eligible subset. -/
theorem C1_nearest_is_strict_first_min (dist : Dist) (c : Point)
    (facs : List (Nat × Option Point)) (k : Nat) (d : ℚ) (t : Nat)
    (h : assignEntry dist facs k (some c) = (k, some t, some d)) :
    ∃ pos p, facs.get? pos = some (t, some p) ∧ dist c p = d ∧
      (∀ j tj q, facs.get? j = some (tj, some q) → d ≤ dist c q) ∧
      (∀ j tj q, j < pos → facs.get? j = some (tj, some q) → d < dist c q) := by
  have h' : nearestScan dist c facs = (some d, some t) := by
    have hh := h
    simp only [assignEntry, Prod.mk.injEq] at hh
    rcases hE : nearestScan dist c facs with ⟨mo, io⟩
    rw [hE] at hh
    obtain ⟨-, h2, h1⟩ := hh
    simp only [] at h1 h2
    rw [show mo = some d from h1, show io = some t from h2]
  exact nearestScan_char dist c facs d t h'

theorem C1_witness :
    ∃ pos p, demoFacs.get? pos = some (0, some p) ∧ demoDist (0, 0) p = 0 ∧
      (∀ j tj q, demoFacs.get? j = some (tj, some q) → 0 ≤ demoDist (0, 0) q) ∧
      (∀ j tj q, j < pos → demoFacs.get? j = some (tj, some q) →
        0 < demoDist (0, 0) q) :=
  C1_nearest_is_strict_first_min demoDist (0, 0) demoFacs 7 0 0
    (by with_unfolding_all rfl)

/-- C2: after one assignment run over any community list the result holds
exactly one entry per community (the identifiers are exactly 0..n-1, in
order, so never zero entries and never a duplicate), communities with
unparseable coordinates get the single entry `(k, none, none)`, and when no
facility is usable every community gets a `(none, none)` entry. -/
theorem C2_assignment_totality (dist : Dist) (facs : List (Nat × Option Point))
    (comms : List (Option Point)) :
    (comm_assigned dist facs comms).length = comms.length ∧
    (comm_assigned dist facs comms).map (fun e => e.1) = List.range comms.length ∧
    (∀ k, comms.get? k = some none →
      (comm_assigned dist facs comms).get? k = some (k, none, none)) ∧
    ((∀ f ∈ facs, f.2 = none) →
      ∀ e ∈ comm_assigned dist facs comms, e.2 = (none, none)) := by
  have hmap := comm_assigned_eq_map dist facs comms
  refine ⟨?_, ?_, ?_, ?_⟩
  · rw [hmap]; simp [List.enum_length]
  · rw [hmap, List.map_map]
    have : ((fun e : Nat × Option Nat × Option ℚ => e.1) ∘
        fun ce : Nat × Option Point => assignEntry dist facs ce.1 ce.2)
        = Prod.fst := by
      funext ce
      exact assignEntry_fst dist facs ce.1 ce.2
    rw [this, List.enum_map_fst]
  · intro k hk
    rw [hmap, List.get?_map, List.get?_enum, hk]
    rfl
  · intro hall e he
    rw [hmap] at he
    obtain ⟨ce, _, rfl⟩ := List.mem_map.mp he
    rcases ce with ⟨k, co⟩
    cases co with
    | none => rfl
    | some c =>
      show ((nearestScan dist c facs).2, (nearestScan dist c facs).1) = (none, none)
      rw [show nearestScan dist c facs = (none, none) from
        scan_fold_all_none dist c facs hall (none, none)]

/-- C6: when no facility satisfies the eligibility predicate (the filtered
table is empty), the assignment run produces the total function mapping every
community to `(none, none)` — a value, not an error: the embedded run is a
total function. -/
theorem C6_no_eligible_facility (dist : Dist) (tbl : List (Nat × HospRow))
    (comms : List (Option Point)) (h : csmbsTable tbl = []) :
    comm_assigned dist (scanList (csmbsTable tbl)) comms
      = comms.enum.map (fun ce => (ce.1, none, none)) := by
  rw [comm_assigned_eq_map, h]
  apply List.map_congr_left
  intro ce _
  rcases ce with ⟨k, co⟩
  cases co with
  | none => rfl
  | some c => rfl

theorem C6_witness :
    comm_assigned demoDist (scanList (csmbsTable (mkTable [demoHospNo])))
        ([demoComm].map commLL)
      = ([demoComm].map commLL).enum.map (fun ce => (ce.1, none, none)) :=
  C6_no_eligible_facility demoDist (mkTable [demoHospNo]) ([demoComm].map commLL)
    (by with_unfolding_all rfl)

theorem zeroWeights_fst (tbl : List (Nat × HospRow)) :
    (zeroWeights tbl).map Prod.fst = tbl.map Prod.fst := by
  unfold zeroWeights
  rw [List.map_map]
  rfl

theorem bumpWeight_fst (tbl : List (Nat × HospRow)) (i : Nat) :
    (bumpWeight tbl i).map Prod.fst = tbl.map Prod.fst := by
  unfold bumpWeight
  rw [List.map_map]
  apply List.map_congr_left
  intro h _
  by_cases hh : h.1 = i <;> simp [hh]

theorem bumpWeight_not_mem (tbl : List (Nat × HospRow)) (i : Nat)
    (h : i ∉ tbl.map Prod.fst) : bumpWeight tbl i = tbl := by
  induction tbl with
  | nil => rfl
  | cons x xs ih =>
    simp only [List.map_cons, List.mem_cons, not_or] at h
    unfold bumpWeight
    rw [List.map_cons]
    have hx : ¬(x.1 = i) := fun hc => h.1 hc.symm
    rw [if_neg hx]
    congr 1
    exact ih h.2

theorem sum_weights_cons (x : Nat × HospRow) (xs : List (Nat × HospRow)) :
    sum_weights (x :: xs) = x.2.wcol.getD 0 + sum_weights xs := by
  simp [sum_weights]

theorem sum_weights_zero (tbl : List (Nat × HospRow)) :
    sum_weights (zeroWeights tbl) = 0 := by
  induction tbl with
  | nil => rfl
  | cons x xs ih =>
    simp [zeroWeights, sum_weights] at ih ⊢
    exact ih

theorem bumpWeight_sum_mem (tbl : List (Nat × HospRow)) (i : Nat)
    (hnd : (tbl.map Prod.fst).Nodup) (hmem : i ∈ tbl.map Prod.fst) :
    sum_weights (bumpWeight tbl i) = sum_weights tbl + 1 := by
  induction tbl with
  | nil => simp at hmem
  | cons x xs ih =>
    rw [List.map_cons] at hnd hmem
    rw [List.nodup_cons] at hnd
    by_cases hx : x.1 = i
    · have hns : i ∉ xs.map Prod.fst := hx ▸ hnd.1
      have htail : bumpWeight xs i = xs := bumpWeight_not_mem xs i hns
      show sum_weights ((if x.1 = i then (x.1, { x.2 with wcol := some (x.2.wcol.getD 0 + 1) }) else x) :: bumpWeight xs i) = _
      rw [if_pos hx, htail, sum_weights_cons, sum_weights_cons]
      simp
      omega
    · have hmem' : i ∈ xs.map Prod.fst := by
        rcases List.mem_cons.mp hmem with h | h
        · exact absurd h.symm hx
        · exact h
      show sum_weights ((if x.1 = i then (x.1, { x.2 with wcol := some (x.2.wcol.getD 0 + 1) }) else x) :: bumpWeight xs i) = _
      rw [if_neg hx, sum_weights_cons, sum_weights_cons, ih hnd.2 hmem']
      omega

theorem wstep_none (t : List (Nat × HospRow)) (e : Nat × Option Nat × Option ℚ)
    (h : e.2.1 = none) : wstep t e = t := by
  unfold wstep
  rw [h]

theorem wstep_some (t : List (Nat × HospRow)) (e : Nat × Option Nat × Option ℚ)
    (i : Nat) (h : e.2.1 = some i) : wstep t e = bumpWeight t i := by
  unfold wstep
  rw [h]

theorem weight_fold_sum :
    ∀ (asg : List (Nat × Option Nat × Option ℚ)) (tbl : List (Nat × HospRow)),
      (tbl.map Prod.fst).Nodup →
      sum_weights (asg.foldl wstep tbl)
        = sum_weights tbl +
          (asg.filter (fun e => match e.2.1 with
            | some i => decide (i ∈ tbl.map Prod.fst)
            | none => false)).length := by
  intro asg
  induction asg with
  | nil => intro tbl _; simp
  | cons e rest ih =>
    intro tbl hnd
    rw [List.foldl_cons]
    rcases he : e.2.1 with _ | i
    · rw [wstep_none tbl e he, ih tbl hnd, List.filter_cons]
      simp [he]
    · rw [wstep_some tbl e i he]
      by_cases hm : i ∈ tbl.map Prod.fst
      · have hfst : (bumpWeight tbl i).map Prod.fst = tbl.map Prod.fst := bumpWeight_fst tbl i
        have hrec := ih (bumpWeight tbl i) (by rw [hfst]; exact hnd)
        rw [hrec, hfst, bumpWeight_sum_mem tbl i hnd hm, List.filter_cons]
        simp only [he, hm]
        simp
        omega
      · have hid : bumpWeight tbl i = tbl := bumpWeight_not_mem tbl i hm
        rw [hid, ih tbl hnd, List.filter_cons]
        simp [he, hm]

theorem scanList_fst (tbl : List (Nat × HospRow)) :
    (scanList tbl).map Prod.fst = tbl.map Prod.fst := by
  unfold scanList
  rw [List.map_map]
  rfl

/-- C7: after aggregation, the sum over all facilities of `weight[f]` equals
the number of communities whose assignment has a non-none facility, where
`weight[f]` counts the communities assigned to facility `f` by the run's
nearest-assignment. -/
theorem C7_weight_conservation (dist : Dist) (rows : List HospRow)
    (comms : List (Option Point)) :
    sum_weights (set_weights (mkTable rows)
        (comm_assigned dist (scanList (mkTable rows)) comms))
      = ((comm_assigned dist (scanList (mkTable rows)) comms).filter
          (fun e => e.2.1.isSome)).length := by
  have hnd : ((zeroWeights (mkTable rows)).map Prod.fst).Nodup := by
    rw [zeroWeights_fst]
    exact List.nodup_enum_map_fst rows
  unfold set_weights
  rw [weight_fold_sum _ _ hnd, sum_weights_zero, Nat.zero_add]
  congr 1
  apply List.filter_congr
  intro e he
  rcases he2 : e.2.1 with _ | t
  · simp [he2]
  · simp only [he2, Option.isSome_some]
    rw [comm_assigned_eq_map] at he
    obtain ⟨ce, _, rfl⟩ := List.mem_map.mp he
    rcases ce with ⟨k, co⟩
    cases co with
    | none => simp [assignEntry] at he2
    | some c =>
      have hsnd : (nearestScan dist c (scanList (mkTable rows))).2 = some t := he2
      obtain ⟨d, hres⟩ := nearestScan_snd_some dist c _ t hsnd
      obtain ⟨pos, p, hget, -, -, -⟩ := nearestScan_char dist c _ d t hres
      have hmem : (t, some p) ∈ scanList (mkTable rows) := List.get?_mem hget
      have hin : t ∈ (scanList (mkTable rows)).map Prod.fst :=
        List.mem_map.mpr ⟨(t, some p), hmem, rfl⟩
      rw [zeroWeights_fst, ← scanList_fst]
      simpa using hin

theorem polyContains_boundary (poly : Polygon) (p : Point)
    (h : onBoundary poly p = true) : polyContains poly p = false := by
  unfold polyContains
  rw [h]
  simp

/-- C4 counterexample: with two adjacent unit squares sharing the boundary
x = 1 and a community exactly on that shared boundary, membership resolves to
no region at all — not to the region appearing first in the input list. -/
theorem C4_counterexample :
    onBoundary sqA demoPt = true ∧ onBoundary sqB demoPt = true ∧
    firstContainingName demoRegionsAB demoPt = none ∧
    firstContainingName demoRegionsAB demoPt ≠ some (some "A") := by
  refine ⟨by with_unfolding_all rfl, by with_unfolding_all rfl,
    by with_unfolding_all rfl, ?_⟩
  intro hcon
  rw [show firstContainingName demoRegionsAB demoPt = none from
    by with_unfolding_all rfl] at hcon
  exact Option.noConfusion hcon

/-- C4 (amended): a point lying on the boundary of every region polygon — in
particular a community on a boundary shared by two adjacent regions — is
contained in no polygon under the strict interior containment the scripts
use, so region membership resolves to none; the first-in-input-order rule
applies only to polygons that strictly contain the point. -/
theorem C4_boundary_point_unassigned (regions : List Region) (p : Point)
    (h : ∀ r ∈ regions, ∀ poly, r.2 = some poly → onBoundary poly p = true) :
    firstContainingName regions p = none := by
  induction regions with
  | nil => rfl
  | cons r rest ih =>
    have hrest := ih (fun r' hr' => h r' (List.mem_cons_of_mem _ hr'))
    rcases r with ⟨nm, po⟩
    cases po with
    | none =>
      show firstContainingName rest p = none
      exact hrest
    | some poly =>
      have hb : onBoundary poly p = true :=
        h (nm, some poly) (List.mem_cons_self _ _) poly rfl
      have hc : polyContains poly p = false := polyContains_boundary poly p hb
      show (if polyContains poly p then some nm else firstContainingName rest p) = none
      rw [hc]
      simpa using hrest

theorem C4_witness : firstContainingName demoRegionsAB demoPt = none :=
  C4_boundary_point_unassigned demoRegionsAB demoPt (by
    intro r hr poly hp
    simp only [demoRegionsAB, List.mem_cons, List.not_mem_nil, or_false] at hr
    rcases hr with rfl | rfl
    · obtain rfl : sqA = poly := Option.some.inj hp
      with_unfolding_all rfl
    · obtain rfl : sqB = poly := Option.some.inj hp
      with_unfolding_all rfl)

/-- The truthy parser in propositional form, used by the C5 theorem. -/
theorem truthy_iff (v : Option String) : truthy v = true ↔
    ∃ s, v = some s ∧
      (s.trim.toLower ∈ (["1", "y", "yes", "true", "รับ", "ใช่", "t", "on"] : List String) ∨
        ∃ x : ℚ, ratOfString s.trim.toLower = some x ∧ 0 < x) := by
  cases v with
  | none => simp [truthy]
  | some s =>
    have hcond : ((decide (s.trim.toLower = "1") || decide (s.trim.toLower = "y") ||
        decide (s.trim.toLower = "yes") || decide (s.trim.toLower = "true") ||
        decide (s.trim.toLower = "รับ") || decide (s.trim.toLower = "ใช่") ||
        decide (s.trim.toLower = "t") || decide (s.trim.toLower = "on")) = true) ↔
        s.trim.toLower ∈ (["1", "y", "yes", "true", "รับ", "ใช่", "t", "on"] : List String) := by
      simp only [Bool.or_eq_true, decide_eq_true_eq, List.mem_cons,
        List.not_mem_nil, or_false]
      tauto
    simp only [truthy, Option.some.injEq]
    constructor
    · intro h
      by_cases hm : s.trim.toLower ∈
          (["1", "y", "yes", "true", "รับ", "ใช่", "t", "on"] : List String)
      · exact ⟨s, rfl, Or.inl hm⟩
      · rw [if_neg (fun hc => hm (hcond.mp hc))] at h
        rcases hc2 : ratOfString s.trim.toLower with _ | x
        · rw [hc2] at h
          simp at h
        · rw [hc2] at h
          simp only [decide_eq_true_eq] at h
          exact ⟨s, rfl, Or.inr ⟨x, hc2, h⟩⟩
    · rintro ⟨s', hs, hor⟩
      obtain rfl : s = s' := hs
      rcases hor with hmem | ⟨x, hx, hpos⟩
      · rw [if_pos (hcond.mpr hmem)]
      · by_cases hm : s.trim.toLower ∈
            (["1", "y", "yes", "true", "รับ", "ใช่", "t", "on"] : List String)
        · rw [if_pos (hcond.mpr hm)]
        · rw [if_neg (fun hc => hm (hcond.mp hc)), hx]
          simpa using hpos

/-- C5: the truthy parser returns true exactly when the trimmed, lowercased
string form of the value is one of the eight affirmative literals (the six
English ones plus the two Thai affirmative words) or parses as a number
strictly greater than zero, and false for every other value including empty
and missing; in particular the spec's ten-element test table holds:
["1","yes","TRUE"," y ","0","no","",None,"2.5","-1"] evaluate to
[T,T,T,T,F,F,F,F,T,F]. -/
theorem C5_truthy_behavior :
    (∀ v : Option String, truthy v = true ↔
      ∃ s, v = some s ∧
        (s.trim.toLower ∈ (["1", "y", "yes", "true", "รับ", "ใช่", "t", "on"] : List String) ∨
          ∃ x : ℚ, ratOfString s.trim.toLower = some x ∧ 0 < x)) ∧
    truthy (some "1") = true ∧ truthy (some "yes") = true ∧
    truthy (some "TRUE") = true ∧ truthy (some " y ") = true ∧
    truthy (some "0") = false ∧ truthy (some "no") = false ∧
    truthy (some "") = false ∧ truthy none = false ∧
    truthy (some "2.5") = true ∧ truthy (some "-1") = false :=
  ⟨truthy_iff, by with_unfolding_all rfl, by with_unfolding_all rfl,
    by with_unfolding_all rfl, by with_unfolding_all rfl,
    by with_unfolding_all rfl, by with_unfolding_all rfl,
    by with_unfolding_all rfl, by with_unfolding_all rfl,
    by with_unfolding_all rfl, by with_unfolding_all rfl⟩

theorem DMap.mem_keys_set (d : DMap) (k : Option String) (v : Metrics)
    (x : Option String) : x ∈ (d.set k v).keys ↔ x ∈ d.keys ∨ x = k := by
  unfold DMap.set
  by_cases h : k ∈ d.keys
  · simp only [h, if_true]
    constructor
    · exact Or.inl
    · rintro (hx | rfl)
      · exact hx
      · exact h
  · simp [h]

theorem DMap.getD_set_same (d : DMap) (k : Option String) (v : Metrics) :
    (d.set k v).getD k = v := by
  unfold DMap.set DMap.getD
  by_cases h : k ∈ d.keys <;> simp [h]

theorem DMap.getD_set_other (d : DMap) (k : Option String) (v : Metrics)
    (x : Option String) (h : x ≠ k) : (d.set k v).getD x = d.getD x := by
  unfold DMap.set DMap.getD
  by_cases hk : k ∈ d.keys
  · simp [hk, h]
  · simp [hk, h]

theorem firstContainingName_mem (regions : List Region) (p : Point)
    (nm : Option String) (h : firstContainingName regions p = some nm) :
    nm ∈ regions.map Prod.fst := by
  induction regions with
  | nil => simp [firstContainingName] at h
  | cons r rest ih =>
    rcases r with ⟨n, po⟩
    cases po with
    | none =>
      have h' : firstContainingName rest p = some nm := h
      exact List.mem_cons_of_mem _ (ih h')
    | some poly =>
      by_cases hc : polyContains poly p = true
      · have : (if polyContains poly p then some n else firstContainingName rest p)
            = some nm := h
        rw [if_pos hc] at this
        cases this
        exact List.mem_cons_self _ _
      · have hcf : polyContains poly p = false := by
          cases hcc : polyContains poly p
          · rfl
          · exact absurd hcc hc
        have : (if polyContains poly p then some n else firstContainingName rest p)
            = some nm := h
        rw [hcf] at this
        simp only [Bool.false_eq_true, if_false] at this
        exact List.mem_cons_of_mem _ (ih this)

theorem initMetrics_fold_keys (regions : List Region) :
    ∀ (d : DMap) (nm : Option String),
      nm ∈ (regions.foldl (fun d r => d.set r.1 Metrics.zero) d).keys ↔
        nm ∈ d.keys ∨ nm ∈ regions.map Prod.fst := by
  induction regions with
  | nil => intro d nm; simp
  | cons r rest ih =>
    intro d nm
    rw [List.foldl_cons]
    rw [ih (d.set r.1 Metrics.zero) nm]
    rw [DMap.mem_keys_set]
    simp only [List.map_cons, List.mem_cons]
    tauto

theorem initMetrics_keys (regions : List Region) (nm : Option String) :
    nm ∈ (initMetrics regions).keys ↔ nm ∈ regions.map Prod.fst := by
  unfold initMetrics
  rw [initMetrics_fold_keys]
  simp


theorem addHospital_none (regions : List Region) (d : DMap) (h : Nat × HospRow)
    (hxy : hospXY h.2 = none) : addHospital regions d h = d := by
  unfold addHospital
  rw [hxy]

theorem addHospital_fc (regions : List Region) (d : DMap) (h : Nat × HospRow)
    (p : Point) (hxy : hospXY h.2 = some p) :
    addHospital regions d h =
      match firstContainingName regions p with
      | none => d
      | some name =>
        DMap.set d name
          { (d.getD name) with
            numHospitals := (d.getD name).numHospitals + 1
            sumWeights := (d.getD name).sumWeights + h.2.wcol.getD 0 } := by
  unfold addHospital
  rw [hxy]

theorem addHospital_nofc (regions : List Region) (d : DMap) (h : Nat × HospRow)
    (p : Point) (hxy : hospXY h.2 = some p)
    (hfc : firstContainingName regions p = none) :
    addHospital regions d h = d := by
  rw [addHospital_fc regions d h p hxy, hfc]

theorem addHospital_set (regions : List Region) (d : DMap) (h : Nat × HospRow)
    (p : Point) (name : Option String) (hxy : hospXY h.2 = some p)
    (hfc : firstContainingName regions p = some name) :
    addHospital regions d h =
      d.set name
        { (d.getD name) with
          numHospitals := (d.getD name).numHospitals + 1
          sumWeights := (d.getD name).sumWeights + h.2.wcol.getD 0 } := by
  rw [addHospital_fc regions d h p hxy, hfc]

theorem addCommunity_none (regions : List Region) (d : DMap) (c : CommRow)
    (hxy : commXY c = none) : addCommunity regions d c = d := by
  unfold addCommunity
  rw [hxy]

theorem addCommunity_fc (regions : List Region) (d : DMap) (c : CommRow)
    (p : Point) (hxy : commXY c = some p) :
    addCommunity regions d c =
      match firstContainingName regions p with
      | none => d
      | some name =>
        DMap.set d name
          { (d.getD name) with
            numCommunities := (d.getD name).numCommunities + 1 } := by
  unfold addCommunity
  rw [hxy]

theorem addCommunity_nofc (regions : List Region) (d : DMap) (c : CommRow)
    (p : Point) (hxy : commXY c = some p)
    (hfc : firstContainingName regions p = none) :
    addCommunity regions d c = d := by
  rw [addCommunity_fc regions d c p hxy, hfc]

theorem addCommunity_set (regions : List Region) (d : DMap) (c : CommRow)
    (p : Point) (name : Option String) (hxy : commXY c = some p)
    (hfc : firstContainingName regions p = some name) :
    addCommunity regions d c =
      d.set name
        { (d.getD name) with
          numCommunities := (d.getD name).numCommunities + 1 } := by
  rw [addCommunity_fc regions d c p hxy, hfc]

theorem addHospital_keys (regions : List Region) (d : DMap) (h : Nat × HospRow)
    (nm : Option String) :
    nm ∈ (addHospital regions d h).keys ↔
      nm ∈ d.keys ∨ (nm ∈ regions.map Prod.fst ∧
        ∃ p, hospXY h.2 = some p ∧ firstContainingName regions p = some nm) := by
  rcases hxy : hospXY h.2 with _ | p
  · rw [addHospital_none regions d h hxy]
    simp [hxy]
  · rcases hfc : firstContainingName regions p with _ | name
    · rw [addHospital_nofc regions d h p hxy hfc]
      constructor
      · exact Or.inl
      · rintro (hk | ⟨-, q, hq, hfc'⟩)
        · exact hk
        · obtain rfl : p = q := Option.some.inj hq
          rw [hfc] at hfc'
          cases hfc'
    · rw [addHospital_set regions d h p name hxy hfc, DMap.mem_keys_set]
      constructor
      · rintro (hk | rfl)
        · exact Or.inl hk
        · exact Or.inr ⟨firstContainingName_mem regions p nm hfc, p, rfl, hfc⟩
      · rintro (hk | ⟨-, q, hq, hfc'⟩)
        · exact Or.inl hk
        · obtain rfl : p = q := Option.some.inj hq
          rw [hfc] at hfc'
          exact Or.inr (Option.some.inj hfc').symm

theorem addCommunity_keys (regions : List Region) (d : DMap) (c : CommRow)
    (nm : Option String) :
    nm ∈ (addCommunity regions d c).keys ↔
      nm ∈ d.keys ∨ (nm ∈ regions.map Prod.fst ∧
        ∃ p, commXY c = some p ∧ firstContainingName regions p = some nm) := by
  rcases hxy : commXY c with _ | p
  · rw [addCommunity_none regions d c hxy]
    simp [hxy]
  · rcases hfc : firstContainingName regions p with _ | name
    · rw [addCommunity_nofc regions d c p hxy hfc]
      constructor
      · exact Or.inl
      · rintro (hk | ⟨-, q, hq, hfc'⟩)
        · exact hk
        · obtain rfl : p = q := Option.some.inj hq
          rw [hfc] at hfc'
          cases hfc'
    · rw [addCommunity_set regions d c p name hxy hfc, DMap.mem_keys_set]
      constructor
      · rintro (hk | rfl)
        · exact Or.inl hk
        · exact Or.inr ⟨firstContainingName_mem regions p nm hfc, p, rfl, hfc⟩
      · rintro (hk | ⟨-, q, hq, hfc'⟩)
        · exact Or.inl hk
        · obtain rfl : p = q := Option.some.inj hq
          rw [hfc] at hfc'
          exact Or.inr (Option.some.inj hfc').symm

theorem hospFold_keys (regions : List Region) :
    ∀ (hs : List (Nat × HospRow)) (d : DMap) (nm : Option String),
      nm ∈ (hs.foldl (addHospital regions) d).keys ↔
        nm ∈ d.keys ∨ (nm ∈ regions.map Prod.fst ∧
          ∃ h ∈ hs, ∃ p, hospXY h.2 = some p ∧
            firstContainingName regions p = some nm) := by
  intro hs
  induction hs with
  | nil => intro d nm; simp
  | cons h hs ih =>
    intro d nm
    rw [List.foldl_cons, ih, addHospital_keys]
    simp only [List.mem_cons]
    constructor
    · rintro ((hk | ⟨hn, p, hp, hf⟩) | ⟨hn, h', hh', p, hp, hf⟩)
      · exact Or.inl hk
      · exact Or.inr ⟨hn, h, Or.inl rfl, p, hp, hf⟩
      · exact Or.inr ⟨hn, h', Or.inr hh', p, hp, hf⟩
    · rintro (hk | ⟨hn, h', (rfl | hh'), p, hp, hf⟩)
      · exact Or.inl (Or.inl hk)
      · exact Or.inl (Or.inr ⟨hn, p, hp, hf⟩)
      · exact Or.inr ⟨hn, h', hh', p, hp, hf⟩

theorem commFold_keys (regions : List Region) :
    ∀ (cs : List CommRow) (d : DMap) (nm : Option String),
      nm ∈ (cs.foldl (addCommunity regions) d).keys ↔
        nm ∈ d.keys ∨ (nm ∈ regions.map Prod.fst ∧
          ∃ c ∈ cs, ∃ p, commXY c = some p ∧
            firstContainingName regions p = some nm) := by
  intro cs
  induction cs with
  | nil => intro d nm; simp
  | cons c cs ih =>
    intro d nm
    rw [List.foldl_cons, ih, addCommunity_keys]
    simp only [List.mem_cons]
    constructor
    · rintro ((hk | ⟨hn, p, hp, hf⟩) | ⟨hn, c', hc', p, hp, hf⟩)
      · exact Or.inl hk
      · exact Or.inr ⟨hn, c, Or.inl rfl, p, hp, hf⟩
      · exact Or.inr ⟨hn, c', Or.inr hc', p, hp, hf⟩
    · rintro (hk | ⟨hn, c', (rfl | hc'), p, hp, hf⟩)
      · exact Or.inl (Or.inl hk)
      · exact Or.inl (Or.inr ⟨hn, p, hp, hf⟩)
      · exact Or.inr ⟨hn, c', hc', p, hp, hf⟩

theorem district_metrics_keys (regions : List Region)
    (hosps : List (Nat × HospRow)) (comms : List CommRow) (nm : Option String) :
    nm ∈ (district_metrics regions hosps comms).keys ↔
      nm ∈ regions.map Prod.fst := by
  unfold district_metrics
  rw [commFold_keys, hospFold_keys, initMetrics_keys]
  constructor
  · rintro ((h | ⟨h, -⟩) | ⟨h, -⟩) <;> exact h
  · intro h
    exact Or.inl (Or.inl h)


theorem le_foldl_max (l : List Nat) :
    ∀ a : Nat, a ≤ l.foldl max a ∧ ∀ x ∈ l, x ≤ l.foldl max a := by
  induction l with
  | nil => intro a; exact ⟨le_refl a, by intro x hx; simp at hx⟩
  | cons y ys ih =>
    intro a
    rw [List.foldl_cons]
    obtain ⟨h1, h2⟩ := ih (max a y)
    refine ⟨le_trans (le_max_left a y) h1, ?_⟩
    intro x hx
    rcases List.mem_cons.mp hx with rfl | hx'
    · exact le_trans (le_max_right a x) h1
    · exact h2 x hx'

theorem foldl_max_choice (l : List Nat) :
    ∀ a : Nat, l.foldl max a = a ∨ l.foldl max a ∈ l := by
  induction l with
  | nil => intro a; exact Or.inl rfl
  | cons y ys ih =>
    intro a
    rw [List.foldl_cons]
    rcases ih (max a y) with h | h
    · rcases max_choice a y with hm | hm
      · exact Or.inl (by rw [h, hm])
      · exact Or.inr (by rw [h, hm]; exact List.mem_cons_self _ _)
    · exact Or.inr (List.mem_cons_of_mem _ h)

theorem foldl_max_le_of (l : List Nat) :
    ∀ (a b : Nat), a ≤ b → (∀ x ∈ l, x ≤ b) → l.foldl max a ≤ b := by
  induction l with
  | nil => intro a b ha _; exact ha
  | cons y ys ih =>
    intro a b ha hl
    rw [List.foldl_cons]
    refine ih (max a y) b (max_le ha (hl y (List.mem_cons_self _ _))) ?_
    intro x hx
    exact hl x (List.mem_cons_of_mem _ hx)

theorem max_sum_weights_eq (d : DMap) (h : d.keys ≠ []) :
    max_sum_weights d
      = (d.keys.map (fun k => (d.val k).sumWeights)).foldl max 0 := by
  unfold max_sum_weights
  cases hk : d.keys with
  | nil => exact absurd hk h
  | cons a l => with_unfolding_all rfl

theorem max_sum_weights_ge (d : DMap) (k : Option String) (hk : k ∈ d.keys) :
    (d.val k).sumWeights ≤ max_sum_weights d := by
  have hne : d.keys ≠ [] := by
    intro h
    rw [h] at hk
    simp at hk
  rw [max_sum_weights_eq d hne]
  exact (le_foldl_max _ 0).2 _ (List.mem_map.mpr ⟨k, hk, rfl⟩)

theorem max_sum_weights_attained (d : DMap) (hne : d.keys ≠ [])
    (hpos : 0 < max_sum_weights d) :
    ∃ k ∈ d.keys, (d.val k).sumWeights = max_sum_weights d := by
  rw [max_sum_weights_eq d hne] at hpos ⊢
  rcases foldl_max_choice (d.keys.map (fun k => (d.val k).sumWeights)) 0 with h | h
  · rw [h] at hpos
    exact absurd hpos (lt_irrefl 0)
  · obtain ⟨k, hk, hkeq⟩ := List.mem_map.mp h
    exact ⟨k, hk, hkeq⟩

/-- C8: every output feature's normalized score is `sumAssignedWeight / max`
(0 when the max is 0), where the max is exactly the maximum of
`sumAssignedWeight` over all output regions; consequently every score lies
in [0, 1], and some region scores 1 whenever some region has a nonzero
`sumAssignedWeight`. -/
theorem C8_normalization (regions : List Region)
    (hosps : List (Nat × HospRow)) (comms : List CommRow) :
    (∀ o ∈ out_features (district_metrics regions hosps comms)
        (max_sum_weights (district_metrics regions hosps comms)) regions,
      (o.norm = if max_sum_weights (district_metrics regions hosps comms) = 0
          then 0
          else (o.metrics.sumWeights : ℚ)
            / (max_sum_weights (district_metrics regions hosps comms) : ℚ)) ∧
      0 ≤ o.norm ∧ o.norm ≤ 1) ∧
    (regions ≠ [] →
      max_sum_weights (district_metrics regions hosps comms)
        = ((out_features (district_metrics regions hosps comms)
              (max_sum_weights (district_metrics regions hosps comms)) regions).map
            (fun o => o.metrics.sumWeights)).foldl max 0) ∧
    ((∃ o ∈ out_features (district_metrics regions hosps comms)
        (max_sum_weights (district_metrics regions hosps comms)) regions,
        0 < o.metrics.sumWeights) →
      ∃ o ∈ out_features (district_metrics regions hosps comms)
        (max_sum_weights (district_metrics regions hosps comms)) regions,
        o.norm = 1) := by
  set d := district_metrics regions hosps comms with hd
  set mx := max_sum_weights d with hmx
  have hkeys : ∀ nm, nm ∈ d.keys ↔ nm ∈ regions.map Prod.fst := fun nm =>
    district_metrics_keys regions hosps comms nm
  have hsle : ∀ r ∈ regions, (d.getD r.1).sumWeights ≤ mx := by
    intro r hr
    have hk : r.1 ∈ d.keys := (hkeys r.1).mpr (List.mem_map.mpr ⟨r, hr, rfl⟩)
    unfold DMap.getD
    rw [if_pos hk]
    exact max_sum_weights_ge d r.1 hk
  refine ⟨?_, ?_, ?_⟩
  · intro o ho
    obtain ⟨r, hr, rfl⟩ := List.mem_map.mp ho
    constructor
    · show choropleth_norm (d.getD r.1).sumWeights mx
        = if mx = 0 then 0 else ((d.getD r.1).sumWeights : ℚ) / (mx : ℚ)
      unfold choropleth_norm
      rcases Nat.eq_zero_or_pos mx with h0 | hpos
      · rw [if_neg (by omega), if_pos h0]
      · rw [if_pos hpos, if_neg (by omega)]
    · show 0 ≤ choropleth_norm (d.getD r.1).sumWeights mx ∧
        choropleth_norm (d.getD r.1).sumWeights mx ≤ 1
      unfold choropleth_norm
      rcases Nat.eq_zero_or_pos mx with h0 | hpos
      · rw [if_neg (by omega)]
        exact ⟨le_refl 0, by norm_num⟩
      · rw [if_pos hpos]
        have hmxq : (0 : ℚ) < (mx : ℚ) := by exact_mod_cast hpos
        constructor
        · positivity
        · rw [div_le_one hmxq]
          exact_mod_cast hsle r hr
  · intro hne
    apply le_antisymm
    · rcases Nat.eq_zero_or_pos mx with h0 | hpos
      · omega
      · have hkne : d.keys ≠ [] := by
          obtain ⟨r, hr⟩ := List.exists_mem_of_ne_nil regions hne
          intro hk
          have := (hkeys r.1).mpr (List.mem_map.mpr ⟨r, hr, rfl⟩)
          rw [hk] at this
          simp at this
        obtain ⟨k, hk, hkeq⟩ := max_sum_weights_attained d hkne hpos
        obtain ⟨r, hr, hrk⟩ := List.mem_map.mp ((hkeys k).mp hk)
        have : (d.getD r.1).sumWeights = mx := by
          unfold DMap.getD
          rw [hrk, if_pos hk, hkeq]
        calc mx = (d.getD r.1).sumWeights := this.symm
          _ ≤ _ := (le_foldl_max _ 0).2 _ (by
            apply List.mem_map.mpr
            exact ⟨⟨r.1, d.getD r.1, choropleth_norm (d.getD r.1).sumWeights mx⟩,
              List.mem_map.mpr ⟨r, hr, rfl⟩, rfl⟩)
    · apply foldl_max_le_of
      · exact Nat.zero_le mx
      · intro x hx
        obtain ⟨o, ho, rfl⟩ := List.mem_map.mp hx
        obtain ⟨r, hr, rfl⟩ := List.mem_map.mp ho
        exact hsle r hr
  · rintro ⟨o, ho, hpos⟩
    obtain ⟨r0, hr0, rfl⟩ := List.mem_map.mp ho
    have hmxpos : 0 < mx := lt_of_lt_of_le hpos (hsle r0 hr0)
    have hkne : d.keys ≠ [] := by
      intro hk
      have := (hkeys r0.1).mpr (List.mem_map.mpr ⟨r0, hr0, rfl⟩)
      rw [hk] at this
      simp at this
    obtain ⟨k, hk, hkeq⟩ := max_sum_weights_attained d hkne hmxpos
    obtain ⟨r, hr, hrk⟩ := List.mem_map.mp ((hkeys k).mp hk)
    refine ⟨⟨r.1, d.getD r.1, choropleth_norm (d.getD r.1).sumWeights mx⟩,
      List.mem_map.mpr ⟨r, hr, rfl⟩, ?_⟩
    show choropleth_norm (d.getD r.1).sumWeights mx = 1
    have hs : (d.getD r.1).sumWeights = mx := by
      unfold DMap.getD
      rw [hrk, if_pos hk, hkeq]
    unfold choropleth_norm
    rw [if_pos hmxpos, hs]
    have hmxq : (mx : ℚ) ≠ 0 := by
      exact_mod_cast Nat.pos_iff_ne_zero.mp hmxpos
    exact div_self hmxq

/-- C10: region aggregation is keyed by the resolved region name: every
output feature's metrics are exactly the metrics bucket stored under its
name (its normalized score is computed from that same bucket), so any two
output features resolving to the same name carry identical merged counts
and identical scores. -/
theorem C10_aggregation_keyed_by_name (regions : List Region)
    (hosps : List (Nat × HospRow)) (comms : List CommRow) :
    (∀ o ∈ out_features (district_metrics regions hosps comms)
        (max_sum_weights (district_metrics regions hosps comms)) regions,
      o.metrics = (district_metrics regions hosps comms).getD o.name ∧
      o.norm = choropleth_norm
        ((district_metrics regions hosps comms).getD o.name).sumWeights
        (max_sum_weights (district_metrics regions hosps comms))) ∧
    (∀ i j oi oj,
      (out_features (district_metrics regions hosps comms)
        (max_sum_weights (district_metrics regions hosps comms)) regions).get? i
        = some oi →
      (out_features (district_metrics regions hosps comms)
        (max_sum_weights (district_metrics regions hosps comms)) regions).get? j
        = some oj →
      oi.name = oj.name → oi.metrics = oj.metrics ∧ oi.norm = oj.norm) := by
  set d := district_metrics regions hosps comms with hd
  set mx := max_sum_weights d with hmx
  have hshape : ∀ o ∈ out_features d mx regions,
      o.metrics = d.getD o.name ∧
      o.norm = choropleth_norm (d.getD o.name).sumWeights mx := by
    intro o ho
    obtain ⟨r, hr, rfl⟩ := List.mem_map.mp ho
    exact ⟨rfl, rfl⟩
  refine ⟨hshape, ?_⟩
  intro i j oi oj hi hj hname
  have hoi : oi ∈ out_features d mx regions := List.get?_mem hi
  have hoj : oj ∈ out_features d mx regions := List.get?_mem hj
  obtain ⟨hmi, hni⟩ := hshape oi hoi
  obtain ⟨hmj, hnj⟩ := hshape oj hoj
  rw [hmi, hmj, hname]
  refine ⟨rfl, ?_⟩
  rw [hni, hnj, hname]

/-- C3 (code-bug exhibit, evaluated at the failing input): in the CSMBS
script the assignment gives the eligible hospital weight 1 — but on the
`csmbs_hospitals` copy; the district loop iterates the original `hospitals`
table, whose rows never acquire the weight column and therefore read as
weight 0, so the district containing the hospital gets
`sum_hospital_weights = 0` instead of 1.  The default-variant pipeline on
the same data yields 1, the value the claim requires. -/
theorem C3_csmbs_weight_column_lost :
    (runCSMBS demoDist demoRegionsC [demoHosp] [demoComm]).eligW
        = [(0, { demoHosp with wcol := some 1 })] ∧
    firstContainingName demoRegionsC (0, 0) = some (some "C") ∧
    ((runCSMBS demoDist demoRegionsC [demoHosp] [demoComm]).out.map
        (fun o => (o.name, o.metrics.sumWeights)) = [(some "C", 0)]) ∧
    ((runDefault demoDist demoRegionsC [demoHosp] [demoComm]).out.map
        (fun o => (o.name, o.metrics.sumWeights)) = [(some "C", 1)]) :=
  ⟨by with_unfolding_all rfl, by with_unfolding_all rfl,
    by with_unfolding_all rfl, by with_unfolding_all rfl⟩

/-- C9 counterexample: a community row whose coordinate cells fail to parse
is not skipped by the load stage — it is returned, with its population
coerced — contradicting both "skipped at load time" and "every returned
record has valid, parseable coordinates"; and a numeric population cell -7
is coerced to the negative integer -7, contradicting "integers ≥ 0".
Downstream, the malformed row's assignment entry is `(0, none, none)`. -/
theorem C9_counterexample :
    load_communities [demoCommBad] = [(demoCommBad, 5)] ∧
    demoCommBad.lat = none ∧
    comm_assigned demoDist (scanList (mkTable [demoHosp]))
        ([demoCommBad].map commLL) = [(0, none, none)] ∧
    coerceIntD (some (-7)) = -7 ∧ coerceIntD (some (-7)) < 0 :=
  ⟨by with_unfolding_all rfl, rfl, by with_unfolding_all rfl,
    by with_unfolding_all rfl, by with_unfolding_all decide⟩

/-- C9 (amended): the load stage keeps every row — a row with unparseable
coordinates is not dropped — and coerces the population cell, with a missing
or non-numeric value becoming 0 (a negative numeric value stays negative);
malformed coordinates are guarded per use instead of at load: the assignment
loop emits `(k, none, none)` for such a community and never aborts. -/
theorem C9_load_keeps_malformed_rows (dist : Dist)
    (facs : List (Nat × Option Point)) (rows : List CommRow) :
    (load_communities rows).length = rows.length ∧
    (∀ k r, rows.get? k = some r →
      (load_communities rows).get? k = some (r, coerceIntD r.pop)) ∧
    (∀ k r, rows.get? k = some r → r.lat = none →
      (comm_assigned dist facs (rows.map commLL)).get? k
        = some (k, none, none)) ∧
    coerceIntD none = 0 := by
  refine ⟨?_, ?_, ?_, rfl⟩
  · simp [load_communities]
  · intro k r hk
    unfold load_communities
    rw [List.get?_map, hk]
    rfl
  · intro k r hk hlat
    have hcl : commLL r = none := by
      unfold commLL
      rw [hlat]
    rw [comm_assigned_eq_map, List.get?_map, List.get?_enum,
      List.get?_map, hk]
    show some (assignEntry dist facs k (commLL r)) = _
    rw [hcl]
    rfl

end BKK
